import Mathlib

/-!
Verification of the primary-key-index and key-merge read path of the
storage engine (files under be/src/olap and be/src/vec/olap).

The repository snapshot contains the class headers and the unit test; the
method bodies (IndexedColumnWriter/Reader, BloomFilter, the BlockReader
policy implementations) live outside the snapshot, so those operations are
modelled from the specification, as indicated in each doc comment.
-/

namespace DorisSpec

/-- A key is a raw byte sequence (`Slice` in the source). -/
abbrev Key := List Nat

/-- Modelled from the spec: byte-lexicographic strict comparison of keys
(`Slice::compare`: memcmp on the common prefix, then the shorter slice is
smaller). `lexLt a b = true` iff `a` sorts strictly before `b`. -/
def lexLt : Key → Key → Bool
  | [], [] => false
  | [], _ :: _ => true
  | _ :: _, [] => false
  | a :: as, b :: bs =>
    if a < b then true
    else if b < a then false
    else lexLt as bs

theorem lexLt_irrefl : ∀ k : Key, lexLt k k = false := by
  intro k
  induction k with
  | nil => rfl
  | cons a as ih => simp [lexLt, ih]

theorem lexLt_asymm : ∀ a b : Key, lexLt a b = true → lexLt b a = false := by
  intro a
  induction a with
  | nil =>
    intro b _
    cases b with
    | nil => rfl
    | cons x xs => rfl
  | cons x xs ih =>
    intro b hab
    cases b with
    | nil => simp [lexLt] at hab
    | cons y ys =>
      simp only [lexLt] at hab ⊢
      rcases Nat.lt_trichotomy x y with h | h | h
      · simp [h, Nat.lt_asymm h, Nat.ne_of_lt h]
      · subst h
        simp only [lt_irrefl, if_false] at hab ⊢
        exact ih ys hab
      · simp [h, Nat.lt_asymm h] at hab

theorem lexLt_trans :
    ∀ a b c : Key, lexLt a b = true → lexLt b c = true → lexLt a c = true := by
  intro a
  induction a with
  | nil =>
    intro b c hab hbc
    cases b with
    | nil => simp [lexLt] at hab
    | cons y ys =>
      cases c with
      | nil => simp [lexLt] at hbc
      | cons z zs => rfl
  | cons x xs ih =>
    intro b c hab hbc
    cases b with
    | nil => simp [lexLt] at hab
    | cons y ys =>
      cases c with
      | nil => simp [lexLt] at hbc
      | cons z zs =>
        simp only [lexLt] at hab hbc ⊢
        rcases Nat.lt_trichotomy x y with hxy | hxy | hxy
        · rcases Nat.lt_trichotomy y z with hyz | hyz | hyz
          · simp [Nat.lt_trans hxy hyz]
          · subst hyz; simp [hxy]
          · simp [hyz, Nat.lt_asymm hyz] at hbc
        · subst hxy
          rcases Nat.lt_trichotomy x z with hxz | hxz | hxz
          · simp [hxz]
          · subst hxz
            simp only [lt_irrefl, if_false] at hab hbc ⊢
            exact ih ys zs hab hbc
          · simp [hxz, Nat.lt_asymm hxz] at hbc
        · simp [hxy, Nat.lt_asymm hxy] at hab

theorem lexLt_total_eq :
    ∀ a b : Key, lexLt a b = false → lexLt b a = false → a = b := by
  intro a
  induction a with
  | nil =>
    intro b hab _
    cases b with
    | nil => rfl
    | cons y ys => simp [lexLt] at hab
  | cons x xs ih =>
    intro b hab hba
    cases b with
    | nil => simp [lexLt] at hba
    | cons y ys =>
      simp only [lexLt] at hab hba
      rcases Nat.lt_trichotomy x y with hxy | hxy | hxy
      · simp [hxy] at hab
      · subst hxy
        simp only [lt_irrefl, if_false] at hab hba
        rw [ih ys hab hba]
      · simp [hxy, Nat.lt_asymm hxy] at hba

/-- Modelled from the spec: the Presence Filter (`segment_v2::BloomFilter`,
whose implementation is outside the snapshot): a bit array indexed by `Nat`
together with the hash functions used to probe it. `add` sets the bit at
every hash of the key; `test` checks that all those bits are set. -/
structure BloomFilter where
  hashes : List (Key → Nat)
  bits : Nat → Bool

/-- Modelled from the spec: `BloomFilter::add_bytes` — set every probed bit. -/
def BloomFilter.add (bf : BloomFilter) (k : Key) : BloomFilter :=
  { bf with bits := fun i => bf.bits i || (bf.hashes.map fun h => h k).contains i }

/-- Modelled from the spec: `BloomFilter::test_bytes` — all probed bits set. -/
def BloomFilter.test (bf : BloomFilter) (k : Key) : Bool :=
  bf.hashes.all fun h => bf.bits (h k)

theorem BloomFilter.add_hashes (bf : BloomFilter) (k : Key) :
    (bf.add k).hashes = bf.hashes := rfl

theorem BloomFilter.bits_mono (bf : BloomFilter) (k : Key) (i : Nat)
    (h : bf.bits i = true) : (bf.add k).bits i = true := by
  simp [BloomFilter.add, h]

theorem BloomFilter.test_mono (bf : BloomFilter) (k q : Key)
    (h : bf.test q = true) : (bf.add k).test q = true := by
  simp only [BloomFilter.test, List.all_eq_true] at h ⊢
  intro f hf
  exact bf.bits_mono k (f q) (h f hf)

theorem BloomFilter.test_add_self (bf : BloomFilter) (k : Key) :
    (bf.add k).test k = true := by
  simp only [BloomFilter.test, BloomFilter.add, List.all_eq_true]
  intro f hf
  simp only [Bool.or_eq_true, List.contains_eq_any_beq, List.any_eq_true]
  right
  exact ⟨f k, List.mem_map.mpr ⟨f, hf, rfl⟩, by simp⟩

/-- Modelled from the spec: the persisted `segment_v2::PrimaryKeyIndexMetaPB`
descriptor written by `finalize`: key count, total byte size, min/max key, the
page-store descriptor (here: the stored key sequence, sufficient to
reconstruct random access by ordinal) and the presence-filter descriptor. -/
structure PrimaryKeyIndexMetaPB where
  num_rows : Nat
  size : Nat
  min_key : Key
  max_key : Key
  keys : List Key
  bf : BloomFilter

/-- State of a `PrimaryKeyIndexBuilder` (header in
be/src/olap/primary_key_index.h; method bodies modelled from the spec).
`keys` stands for the contents handed to the `IndexedColumnWriter`. -/
structure PrimaryKeyIndexBuilder where
  num_rows : Nat
  size : Nat
  min_key : Key
  max_key : Key
  keys : List Key
  bf : BloomFilter

/-- Modelled from the spec: `PrimaryKeyIndexBuilder::init` — fresh builder
state over an empty page writer and an empty presence filter. -/
def PrimaryKeyIndexBuilder.init (bf0 : BloomFilter) : PrimaryKeyIndexBuilder :=
  { num_rows := 0, size := 0, min_key := [], max_key := [], keys := [], bf := bf0 }

/-- Modelled from the spec: `PrimaryKeyIndexBuilder::add_item` — record
min key on the first call only, max key on every call, increment the row
count, accumulate the byte size, forward the key to the page writer and to
the presence filter. -/
def PrimaryKeyIndexBuilder.add_item (b : PrimaryKeyIndexBuilder) (k : Key) :
    PrimaryKeyIndexBuilder :=
  { num_rows := b.num_rows + 1
    size := b.size + k.length
    min_key := if b.num_rows = 0 then k else b.min_key
    max_key := k
    keys := b.keys ++ [k]
    bf := b.bf.add k }

/-- Modelled from the spec: `PrimaryKeyIndexBuilder::finalize` — flush and
fill the metadata descriptor from the accumulated state. -/
def PrimaryKeyIndexBuilder.finalize (b : PrimaryKeyIndexBuilder) :
    PrimaryKeyIndexMetaPB :=
  { num_rows := b.num_rows, size := b.size, min_key := b.min_key,
    max_key := b.max_key, keys := b.keys, bf := b.bf }

/-- Feed a whole key sequence to a fresh builder (`add_item` in order). -/
def buildIndex (bf0 : BloomFilter) (K : List Key) : PrimaryKeyIndexBuilder :=
  K.foldl PrimaryKeyIndexBuilder.add_item (PrimaryKeyIndexBuilder.init bf0)

/-- State of a `PrimaryKeyIndexReader` (header in
be/src/olap/primary_key_index.h): the `_parsed` flag, the reconstructed
key store and the reconstructed presence filter. -/
structure PrimaryKeyIndexReader where
  parsed : Bool
  keys : List Key
  bf : BloomFilter

/-- A freshly constructed reader: `_parsed(false)`. -/
def PrimaryKeyIndexReader.new : PrimaryKeyIndexReader :=
  { parsed := false, keys := [], bf := { hashes := [], bits := fun _ => false } }

/-- Modelled from the spec: `PrimaryKeyIndexReader::parse` — reconstruct the
paged key store and the presence filter from the metadata descriptor. -/
def PrimaryKeyIndexReader.parse (meta : PrimaryKeyIndexMetaPB) :
    PrimaryKeyIndexReader :=
  { parsed := true, keys := meta.keys, bf := meta.bf }

/-- A defensive fault: a `DCHECK` firing on a method called before `parse`. -/
inductive Fault where
  | dcheckFailed
deriving DecidableEq

/-- `PrimaryKeyIndexReader::check_present` (header, guarded by
`DCHECK(_parsed)`, modelled as a fail-fast fault): delegate to the filter. -/
def PrimaryKeyIndexReader.check_present (r : PrimaryKeyIndexReader) (k : Key) :
    Except Fault Bool :=
  if r.parsed then Except.ok (r.bf.test k) else Except.error Fault.dcheckFailed

/-- `PrimaryKeyIndexReader::num_rows` (header, guarded by `DCHECK(_parsed)`). -/
def PrimaryKeyIndexReader.num_rows (r : PrimaryKeyIndexReader) :
    Except Fault Nat :=
  if r.parsed then Except.ok r.keys.length else Except.error Fault.dcheckFailed

/-- A positional seek iterator over the paged key store
(`segment_v2::IndexedColumnIterator`): the key sequence plus the current
ordinal position. -/
structure IndexedColumnIterator where
  keys : List Key
  pos : Nat
deriving DecidableEq

/-- `PrimaryKeyIndexReader::new_iterator` (header, guarded by
`DCHECK(_parsed)`): a fresh independent iterator over the key store. -/
def PrimaryKeyIndexReader.new_iterator (r : PrimaryKeyIndexReader) :
    Except Fault IndexedColumnIterator :=
  if r.parsed then Except.ok { keys := r.keys, pos := 0 }
  else Except.error Fault.dcheckFailed

/-- `PrimaryKeyIndexReader::type_info` (header, guarded by `DCHECK(_parsed)`);
the type descriptor itself is opaque here. -/
def PrimaryKeyIndexReader.type_info (r : PrimaryKeyIndexReader) :
    Except Fault Unit :=
  if r.parsed then Except.ok () else Except.error Fault.dcheckFailed

/-- Index of the first entry not lexicographically below `q` (`none` when
every entry is below `q`). -/
def seekIdx (q : Key) : List Key → Option Nat
  | [] => none
  | k :: ks => if lexLt k q then (seekIdx q ks).map (· + 1) else some 0

/-- Modelled from the spec: `IndexedColumnIterator::seek_at_or_after` —
position at the first entry `≥ key`; `none` models the `NotFound` status;
the boolean is the `exact_match` output. -/
def IndexedColumnIterator.seek_at_or_after (it : IndexedColumnIterator)
    (q : Key) : Option (IndexedColumnIterator × Bool) :=
  match seekIdx q it.keys with
  | none => none
  | some i => some ({ it with pos := i }, decide (it.keys.getD i [] = q))

/-- `IndexedColumnIterator::get_current_ordinal`. -/
def IndexedColumnIterator.get_current_ordinal (it : IndexedColumnIterator) :
    Nat := it.pos

/-- The full round trip of the test: build from `K`, finalize, parse. -/
def roundTrip (bf0 : BloomFilter) (K : List Key) : PrimaryKeyIndexReader :=
  PrimaryKeyIndexReader.parse (buildIndex bf0 K).finalize

theorem foldl_add_item_keys (b : PrimaryKeyIndexBuilder) (K : List Key) :
    (K.foldl PrimaryKeyIndexBuilder.add_item b).keys = b.keys ++ K := by
  induction K generalizing b with
  | nil => simp
  | cons k ks ih =>
    simp [List.foldl_cons, ih, PrimaryKeyIndexBuilder.add_item]

theorem foldl_add_item_num_rows (b : PrimaryKeyIndexBuilder) (K : List Key) :
    (K.foldl PrimaryKeyIndexBuilder.add_item b).num_rows =
      b.num_rows + K.length := by
  induction K generalizing b with
  | nil => simp
  | cons k ks ih =>
    simp only [List.foldl_cons, ih, PrimaryKeyIndexBuilder.add_item,
      List.length_cons]
    omega

theorem foldl_add_item_bf (b : PrimaryKeyIndexBuilder) (K : List Key) :
    (K.foldl PrimaryKeyIndexBuilder.add_item b).bf =
      K.foldl BloomFilter.add b.bf := by
  induction K generalizing b with
  | nil => rfl
  | cons k ks ih => simp [List.foldl_cons, ih, PrimaryKeyIndexBuilder.add_item]

theorem foldl_bloom_add_preserves (K : List Key) (bf : BloomFilter) (k : Key)
    (h : bf.test k = true) : (K.foldl BloomFilter.add bf).test k = true := by
  induction K generalizing bf with
  | nil => exact h
  | cons a as ih => exact ih (bf.add a) (bf.test_mono a k h)

theorem foldl_bloom_add_test (K : List Key) (bf : BloomFilter) :
    ∀ k ∈ K, (K.foldl BloomFilter.add bf).test k = true := by
  induction K generalizing bf with
  | nil => intro k hk; simp at hk
  | cons a as ih =>
    intro k hk
    rcases List.mem_cons.mp hk with h | h
    · subst h
      exact foldl_bloom_add_preserves as (bf.add k) k (bf.test_add_self k)
    · exact ih (bf.add a) k h

theorem roundTrip_parsed (bf0 : BloomFilter) (K : List Key) :
    (roundTrip bf0 K).parsed = true := rfl

theorem roundTrip_keys (bf0 : BloomFilter) (K : List Key) :
    (roundTrip bf0 K).keys = K := by
  simp [roundTrip, PrimaryKeyIndexReader.parse, PrimaryKeyIndexBuilder.finalize,
    buildIndex, foldl_add_item_keys, PrimaryKeyIndexBuilder.init]

theorem roundTrip_bf (bf0 : BloomFilter) (K : List Key) :
    (roundTrip bf0 K).bf = K.foldl BloomFilter.add bf0 := by
  simp [roundTrip, PrimaryKeyIndexReader.parse, PrimaryKeyIndexBuilder.finalize,
    buildIndex, foldl_add_item_bf, PrimaryKeyIndexBuilder.init]

theorem foldl_add_item_min_key (K : List Key) (b : PrimaryKeyIndexBuilder)
    (h : b.num_rows ≠ 0) :
    (K.foldl PrimaryKeyIndexBuilder.add_item b).min_key = b.min_key := by
  induction K generalizing b with
  | nil => rfl
  | cons k ks ih =>
    simp only [List.foldl_cons]
    rw [ih]
    · simp [PrimaryKeyIndexBuilder.add_item, h]
    · simp [PrimaryKeyIndexBuilder.add_item]

theorem foldl_add_item_max_key (K : List Key) (b : PrimaryKeyIndexBuilder) :
    (K.foldl PrimaryKeyIndexBuilder.add_item b).max_key =
      K.getLastD b.max_key := by
  induction K generalizing b with
  | nil => rfl
  | cons k ks ih =>
    simp only [List.foldl_cons, List.getLastD_cons]
    rw [ih]
    rfl

theorem buildIndex_min_key (bf0 : BloomFilter) (k : Key) (ks : List Key) :
    (buildIndex bf0 (k :: ks)).min_key = k := by
  simp only [buildIndex, List.foldl_cons]
  rw [foldl_add_item_min_key]
  · rfl
  · simp [PrimaryKeyIndexBuilder.add_item, PrimaryKeyIndexBuilder.init]

theorem buildIndex_max_key (bf0 : BloomFilter) (K : List Key) :
    (buildIndex bf0 K).max_key = K.getLastD [] := by
  simp [buildIndex, foldl_add_item_max_key, PrimaryKeyIndexBuilder.init]

theorem seekIdx_eq_some (q : Key) (ks : List Key) (i : Nat)
    (hi : i < ks.length)
    (hbefore : ∀ j, j < i → lexLt (ks.getD j []) q = true)
    (hat : lexLt (ks.getD i []) q = false) :
    seekIdx q ks = some i := by
  induction ks generalizing i with
  | nil => simp at hi
  | cons k ks ih =>
    cases i with
    | zero =>
      have hat0 : lexLt k q = false := hat
      simp [seekIdx, hat0]
    | succ n =>
      have h0 : lexLt k q = true := hbefore 0 (Nat.succ_pos n)
      have htail : seekIdx q ks = some n := by
        apply ih n (Nat.lt_of_succ_lt_succ hi)
        · intro j hj
          exact hbefore (j + 1) (Nat.succ_lt_succ hj)
        · exact hat
      simp [seekIdx, h0, htail]

theorem seekIdx_eq_none (q : Key) (ks : List Key)
    (hall : ∀ k ∈ ks, lexLt k q = true) :
    seekIdx q ks = none := by
  induction ks with
  | nil => rfl
  | cons k ks ih =>
    have h0 : lexLt k q = true := hall k (List.mem_cons_self k ks)
    have htail := ih fun x hx => hall x (List.mem_cons_of_mem k hx)
    simp [seekIdx, h0, htail]

/-- C1: for every ascending sequence of distinct keys K fed to a
`PrimaryKeyIndexBuilder` via `add_item` and then finalized, a
`PrimaryKeyIndexReader` that parses the resulting metadata reports
`num_rows` equal to the length of K, and `check_present k` returns true for
every k in K. -/
theorem C1_roundtrip_num_rows_presence (bf0 : BloomFilter) (K : List Key)
    (hasc : K.Pairwise fun a b => lexLt a b = true) :
    (roundTrip bf0 K).num_rows = Except.ok K.length ∧
      ∀ k ∈ K, (roundTrip bf0 K).check_present k = Except.ok true := by
  constructor
  · simp [PrimaryKeyIndexReader.num_rows, roundTrip_parsed, roundTrip_keys]
  · intro k hk
    simp only [PrimaryKeyIndexReader.check_present, roundTrip_parsed, if_true]
    rw [roundTrip_bf]
    rw [foldl_bloom_add_test K bf0 k hk]

/-- Witness for C1 at the concrete ascending sequence
`["1" , "2"]` (bytes 49 and 50) and a one-hash filter. -/
theorem C1_witness :
    (List.Pairwise (fun a b => lexLt a b = true) [[49], [50]]) ∧
      ((roundTrip ⟨[fun k => k.headD 0], fun _ => false⟩
          [[49], [50]]).num_rows = Except.ok ([[49], [50]] : List Key).length ∧
        ∀ k ∈ ([[49], [50]] : List Key),
          (roundTrip ⟨[fun k => k.headD 0], fun _ => false⟩
            [[49], [50]]).check_present k = Except.ok true) :=
  ⟨by decide,
   C1_roundtrip_num_rows_presence ⟨[fun k => k.headD 0], fun _ => false⟩
     [[49], [50]] (by decide)⟩

/-- C2: for every key k added to the index at 0-based position i,
`seek_at_or_after k` on a fresh iterator from
`PrimaryKeyIndexReader::new_iterator` returns `exact_match = true` and
`get_current_ordinal` then returns i. -/
theorem C2_seek_exact_match_ordinal (bf0 : BloomFilter) (K : List Key)
    (hasc : K.Pairwise fun a b => lexLt a b = true)
    (i : Nat) (hi : i < K.length) (it : IndexedColumnIterator)
    (hit : (roundTrip bf0 K).new_iterator = Except.ok it) :
    ∃ it2, it.seek_at_or_after (K.getD i []) = some (it2, true) ∧
      it2.get_current_ordinal = i := by
  have hitval : it = { keys := K, pos := 0 } := by
    simp only [PrimaryKeyIndexReader.new_iterator, roundTrip_parsed,
      if_true, roundTrip_keys] at hit
    exact (Except.ok.injEq _ _).mp hit.symm ▸ rfl
  subst hitval
  have hseek : seekIdx (K.getD i []) K = some i := by
    apply seekIdx_eq_some _ _ _ hi
    · intro j hj
      have hget := List.pairwise_iff_get.mp hasc ⟨j, Nat.lt_trans hj hi⟩
        ⟨i, hi⟩ hj
      rw [List.getD_eq_get _ _ (Nat.lt_trans hj hi),
        List.getD_eq_get _ _ hi]
      exact hget
    · rw [lexLt_irrefl]
  refine ⟨{ keys := K, pos := i }, ?_, rfl⟩
  unfold IndexedColumnIterator.seek_at_or_after
  rw [hseek]
  simp

/-- Witness for C2: keys `["1","2","3"]` (single bytes), position 1. -/
theorem C2_witness :
    ∃ it2, IndexedColumnIterator.seek_at_or_after
        { keys := [[49], [50], [51]], pos := 0 }
        (([[49], [50], [51]] : List Key).getD 1 []) = some (it2, true) ∧
      it2.get_current_ordinal = 1 :=
  C2_seek_exact_match_ordinal
    ⟨[fun k => k.headD 0], fun _ => false⟩ [[49], [50], [51]]
    (by decide) 1 (by decide) { keys := [[49], [50], [51]], pos := 0 } rfl

/-- C7: the presence filter has one-sided error: every key added during
build tests true after reload, and whenever `check_present` returns false
the key is definitely absent from the build sequence. -/
theorem C7_presence_one_sided (bf0 : BloomFilter) (K : List Key) :
    (∀ k ∈ K, (roundTrip bf0 K).check_present k = Except.ok true) ∧
      ∀ q, (roundTrip bf0 K).check_present q = Except.ok false → q ∉ K := by
  have hpos : ∀ k ∈ K, (roundTrip bf0 K).check_present k = Except.ok true := by
    intro k hk
    simp only [PrimaryKeyIndexReader.check_present, roundTrip_parsed, if_true]
    rw [roundTrip_bf]
    rw [foldl_bloom_add_test K bf0 k hk]
  refine ⟨hpos, ?_⟩
  intro q hq hmem
  rw [hpos q hmem] at hq
  simp at hq

/-- C9: on a reader on which `parse` has not been called, each of
`check_present`, `new_iterator`, `type_info` and `num_rows` fails fast with
a defensive fault instead of computing from uninitialized state. -/
theorem C9_unparsed_fails_fast (r : PrimaryKeyIndexReader)
    (h : r.parsed = false) :
    (∀ k, r.check_present k = Except.error Fault.dcheckFailed) ∧
      r.new_iterator = Except.error Fault.dcheckFailed ∧
      r.type_info = Except.error Fault.dcheckFailed ∧
      r.num_rows = Except.error Fault.dcheckFailed := by
  refine ⟨fun k => ?_, ?_, ?_, ?_⟩ <;>
    simp [PrimaryKeyIndexReader.check_present, PrimaryKeyIndexReader.new_iterator,
      PrimaryKeyIndexReader.type_info, PrimaryKeyIndexReader.num_rows, h]

theorem buildIndex_min_key_headD (bf0 : BloomFilter) (K : List Key)
    (h : K ≠ []) : (buildIndex bf0 K).min_key = K.headD [] := by
  cases K with
  | nil => exact absurd rfl h
  | cons k ks => exact buildIndex_min_key bf0 k ks

/-- The ASCII bytes of the four decimal digits of `x` (for `1000 ≤ x ≤ 9999`
this is exactly `std::to_string(x)` as used by the test). -/
def fourDigitKey (x : Nat) : Key :=
  [48 + x / 1000 % 10, 48 + x / 100 % 10, 48 + x / 10 % 10, 48 + x % 10]

/-- The test scenario key sequence: "1000", "1002", ..., "9998". -/
def testKeys : List Key :=
  (List.range 4500).map fun i => fourDigitKey (1000 + 2 * i)

/-- The trivial presence filter used for the concrete scenario. -/
def c3bf : BloomFilter := { hashes := [], bits := fun _ => false }

theorem testKeys_length : testKeys.length = 4500 := by
  simp [testKeys]

theorem testKeys_getD (j : Nat) (hj : j < 4500) :
    testKeys.getD j [] = fourDigitKey (1000 + 2 * j) := by
  rw [testKeys, List.getD_eq_getElem _ _ (by simpa using hj)]
  simp

theorem fourDigitKey_lexLt_mono (m n : Nat) (h1 : 1000 ≤ m) (h2 : n ≤ 9999)
    (h : m < n) : lexLt (fourDigitKey m) (fourDigitKey n) = true := by
  simp only [fourDigitKey, lexLt]
  split_ifs <;> simp_all <;> omega

theorem fourDigitKey_lexLt_87 (m : Nat) (h1 : 1000 ≤ m) (h2 : m < 8700) :
    lexLt (fourDigitKey m) [56, 55] = true := by
  simp only [fourDigitKey, lexLt]
  split_ifs <;> simp_all <;> omega

theorem testKeys_ne_nil : testKeys ≠ [] := by
  simp [testKeys, List.range_eq_nil]

theorem testKeys_headD : testKeys.headD [] = fourDigitKey 1000 := by
  have h : (4500 : Nat) = 4499 + 1 := by norm_num
  rw [testKeys, h, List.range_succ_eq_map]
  simp

theorem getLastD_eq_getD (l : List Key) (d : Key) :
    l.getLastD d = l.getD (l.length - 1) d := by
  induction l generalizing d with
  | nil => rfl
  | cons a l ih =>
    rw [List.getLastD_cons, ih]
    cases l with
    | nil => rfl
    | cons b m => simp

theorem testKeys_getLastD : testKeys.getLastD [] = fourDigitKey 9998 := by
  rw [getLastD_eq_getD, testKeys_length]
  rw [testKeys_getD 4499 (by omega)]

theorem seek_at_or_after_of_seekIdx (it : IndexedColumnIterator) (q : Key)
    (i : Nat) (h : seekIdx q it.keys = some i) :
    it.seek_at_or_after q =
      some ({ it with pos := i }, decide (it.keys.getD i [] = q)) := by
  unfold IndexedColumnIterator.seek_at_or_after
  rw [h]

theorem seek_at_or_after_of_seekIdx_none (it : IndexedColumnIterator)
    (q : Key) (h : seekIdx q it.keys = none) : it.seek_at_or_after q = none := by
  unfold IndexedColumnIterator.seek_at_or_after
  rw [h]

theorem seekIdx_8701 : seekIdx [56, 55, 48, 49] testKeys = some 3851 := by
  refine seekIdx_eq_some _ _ _ ?_ ?_ ?_
  · rw [testKeys_length]; omega
  · intro j hj
    rw [testKeys_getD j (by omega)]
    show lexLt (fourDigitKey (1000 + 2 * j)) (fourDigitKey 8701) = true
    exact fourDigitKey_lexLt_mono _ _ (by omega) (by omega) (by omega)
  · rw [testKeys_getD 3851 (by omega)]
    decide

theorem seekIdx_87 : seekIdx [56, 55] testKeys = some 3850 := by
  refine seekIdx_eq_some _ _ _ ?_ ?_ ?_
  · rw [testKeys_length]; omega
  · intro j hj
    rw [testKeys_getD j (by omega)]
    exact fourDigitKey_lexLt_87 _ (by omega) (by omega)
  · rw [testKeys_getD 3850 (by omega)]
    decide

theorem seekIdx_9999 : seekIdx [57, 57, 57, 57] testKeys = none := by
  refine seekIdx_eq_none _ _ ?_
  intro k hk
  simp only [testKeys, List.mem_map, List.mem_range] at hk
  obtain ⟨i, hi, rfl⟩ := hk
  show lexLt (fourDigitKey (1000 + 2 * i)) (fourDigitKey 9999) = true
  exact fourDigitKey_lexLt_mono _ _ (by omega) (by omega) (by omega)

set_option maxRecDepth 40000 in
theorem seek_8701 :
    IndexedColumnIterator.seek_at_or_after { keys := testKeys, pos := 0 }
      [56, 55, 48, 49] = some ({ keys := testKeys, pos := 3851 }, false) := by
  rw [seek_at_or_after_of_seekIdx { keys := testKeys, pos := 0 }
    [56, 55, 48, 49] 3851 seekIdx_8701]
  rw [show ({ keys := testKeys, pos := 0 } : IndexedColumnIterator).keys
      = testKeys from rfl]
  rw [testKeys_getD 3851 (by omega)]
  simp only [show (decide (fourDigitKey (1000 + 2 * 3851)
      = ([56, 55, 48, 49] : Key))) = false from by decide]

set_option maxRecDepth 40000 in
theorem seek_87 :
    IndexedColumnIterator.seek_at_or_after { keys := testKeys, pos := 0 }
      [56, 55] = some ({ keys := testKeys, pos := 3850 }, false) := by
  rw [seek_at_or_after_of_seekIdx { keys := testKeys, pos := 0 }
    [56, 55] 3850 seekIdx_87]
  rw [show ({ keys := testKeys, pos := 0 } : IndexedColumnIterator).keys
      = testKeys from rfl]
  rw [testKeys_getD 3850 (by omega)]
  simp only [show (decide (fourDigitKey (1000 + 2 * 3850)
      = ([56, 55] : Key))) = false from by decide]

set_option maxRecDepth 40000 in
theorem seek_9999 :
    IndexedColumnIterator.seek_at_or_after { keys := testKeys, pos := 0 }
      [57, 57, 57, 57] = none :=
  seek_at_or_after_of_seekIdx_none { keys := testKeys, pos := 0 }
    [57, 57, 57, 57] seekIdx_9999

/-- C3: after building the index from the 4500 keys "1000","1002",...,"9998"
(`fourDigitKey` of the even numbers; "8701" is bytes [56,55,48,49], "87" is
[56,55], "9999" is [57,57,57,57]): `min_key` is "1000" and `max_key` is
"9998"; on the fresh iterator, `seek_at_or_after "8701"` gives
`exact_match = false` with current ordinal 3851, `seek_at_or_after "87"`
gives `exact_match = false` with current ordinal 3850, and
`seek_at_or_after "9999"` gives `NotFound`. -/
theorem C3_concrete_scenario :
    (buildIndex c3bf testKeys).min_key = fourDigitKey 1000 ∧
      (buildIndex c3bf testKeys).max_key = fourDigitKey 9998 ∧
      (roundTrip c3bf testKeys).new_iterator =
        Except.ok { keys := testKeys, pos := 0 } ∧
      IndexedColumnIterator.seek_at_or_after { keys := testKeys, pos := 0 }
        [56, 55, 48, 49] = some ({ keys := testKeys, pos := 3851 }, false) ∧
      IndexedColumnIterator.get_current_ordinal
        { keys := testKeys, pos := 3851 } = 3851 ∧
      IndexedColumnIterator.seek_at_or_after { keys := testKeys, pos := 0 }
        [56, 55] = some ({ keys := testKeys, pos := 3850 }, false) ∧
      IndexedColumnIterator.get_current_ordinal
        { keys := testKeys, pos := 3850 } = 3850 ∧
      IndexedColumnIterator.seek_at_or_after { keys := testKeys, pos := 0 }
        [57, 57, 57, 57] = none := by
  refine ⟨?_, ?_, ?_, seek_8701, rfl, seek_87, rfl, seek_9999⟩
  · rw [buildIndex_min_key_headD _ _ testKeys_ne_nil, testKeys_headD]
  · rw [buildIndex_max_key, testKeys_getLastD]
  · simp [PrimaryKeyIndexReader.new_iterator, roundTrip_parsed, roundTrip_keys]

/-- Witness for C9 at the freshly constructed reader (`_parsed(false)`). -/
theorem C9_witness :
    (∀ k, PrimaryKeyIndexReader.new.check_present k =
        Except.error Fault.dcheckFailed) ∧
      PrimaryKeyIndexReader.new.new_iterator = Except.error Fault.dcheckFailed ∧
      PrimaryKeyIndexReader.new.type_info = Except.error Fault.dcheckFailed ∧
      PrimaryKeyIndexReader.new.num_rows = Except.error Fault.dcheckFailed :=
  C9_unparsed_fails_fast PrimaryKeyIndexReader.new rfl

/-- A row reference tagged with its key and the version of its originating
row-batch source (the merge heap orders these). -/
structure TaggedRow (ρ : Type) where
  key : Nat
  version : Nat
  row : ρ
deriving DecidableEq

/-- Modelled from the spec: a Row-Batch Source (rowset): a version and a
list of (key, row) pairs sorted ascending by key. -/
structure RowSource (ρ : Type) where
  version : Nat
  rows : List (Nat × ρ)
deriving DecidableEq

/-- All rows contributed by all sources, each tagged with its source's
version. -/
def allRows {ρ : Type} (srcs : List (RowSource ρ)) : List (TaggedRow ρ) :=
  srcs.bind fun s =>
    s.rows.map fun kr => { key := kr.1, version := s.version, row := kr.2 }

/-- Modelled from the spec: the merge-heap order — ascending by key, ties on
equal keys broken by descending version (rows of the same key are read from
high version to low). -/
def mergeRel {ρ : Type} (a b : TaggedRow ρ) : Prop :=
  a.key < b.key ∨ (a.key = b.key ∧ b.version ≤ a.version)

instance mergeRelDecidable {ρ : Type} : DecidableRel (@mergeRel ρ) := by
  intro a b
  unfold mergeRel
  infer_instance

instance mergeRelTotal {ρ : Type} : IsTotal (TaggedRow ρ) mergeRel := by
  constructor
  intro a b
  rcases Nat.lt_trichotomy a.key b.key with h | h | h
  · exact Or.inl (Or.inl h)
  · rcases Nat.le_total b.version a.version with hv | hv
    · exact Or.inl (Or.inr ⟨h, hv⟩)
    · exact Or.inr (Or.inr ⟨h.symm, hv⟩)
  · exact Or.inr (Or.inl h)

instance mergeRelTrans {ρ : Type} : IsTrans (TaggedRow ρ) mergeRel := by
  constructor
  intro a b c hab hbc
  unfold mergeRel at hab hbc ⊢
  omega

/-- Modelled from the spec: the Merge Iterator (`VCollectIterator`): the
k-way merge of all source rows into one sequence ascending by key, equal
keys ordered by descending version. -/
def mergedRows {ρ : Type} (srcs : List (RowSource ρ)) : List (TaggedRow ρ) :=
  (allRows srcs).insertionSort mergeRel

/-- Group the merged stream into runs of equal keys: each group is its
first row paired with the later rows of the same key (the first row of a
group is the one treated specially by both merge policies). -/
def groupRuns {ρ : Type} :
    List (TaggedRow ρ) → List (TaggedRow ρ × List (TaggedRow ρ))
  | [] => []
  | t :: rest =>
    match groupRuns rest with
    | [] => [(t, [])]
    | (u, g) :: tail =>
      if t.key = u.key then (t, u :: g) :: tail
      else (t, []) :: (u, g) :: tail

theorem groupRuns_join {ρ : Type} (l : List (TaggedRow ρ)) :
    (groupRuns l).bind (fun ug => ug.1 :: ug.2) = l := by
  induction l with
  | nil => rfl
  | cons t rest ih =>
    simp only [groupRuns]
    cases hgr : groupRuns rest with
    | nil =>
      rw [hgr] at ih
      simp only [List.nil_bind] at ih
      simp [← ih]
    | cons ug tail =>
      obtain ⟨u, g⟩ := ug
      rw [hgr] at ih
      by_cases hk : t.key = u.key
      · simp only [hk, if_true]
        simp only [List.cons_bind] at ih ⊢
        simp [← ih]
      · simp only [hk, if_false]
        simp only [List.cons_bind] at ih ⊢
        simp [← ih]

theorem groupRuns_head {ρ : Type} (t : TaggedRow ρ) (rest : List (TaggedRow ρ)) :
    ∃ g tail, groupRuns (t :: rest) = (t, g) :: tail := by
  simp only [groupRuns]
  cases hgr : groupRuns rest with
  | nil => exact ⟨[], [], rfl⟩
  | cons ug tail =>
    obtain ⟨u, g⟩ := ug
    by_cases hk : t.key = u.key
    · exact ⟨u :: g, tail, by simp [hk]⟩
    · exact ⟨[], (u, g) :: tail, by simp [hk]⟩

theorem groupRuns_eq_nil {ρ : Type} (l : List (TaggedRow ρ))
    (h : groupRuns l = []) : l = [] := by
  have hj := groupRuns_join l
  rw [h] at hj
  simpa using hj.symm

theorem mergeRel_key_le {ρ : Type} {a b : TaggedRow ρ} (h : mergeRel a b) :
    a.key ≤ b.key := by
  unfold mergeRel at h
  omega

theorem groupRuns_cons_cons {ρ : Type} (t r0 : TaggedRow ρ)
    (rest2 g2 : List (TaggedRow ρ)) (tail2 : List (TaggedRow ρ × List (TaggedRow ρ)))
    (hgr2 : groupRuns (r0 :: rest2) = (r0, g2) :: tail2) :
    groupRuns (t :: r0 :: rest2) =
      if t.key = r0.key then (t, r0 :: g2) :: tail2
      else (t, []) :: (r0, g2) :: tail2 := by
  simp only [groupRuns] at hgr2 ⊢
  rw [hgr2]

theorem groupRuns_strict_keys {ρ : Type} :
    ∀ l : List (TaggedRow ρ), l.Pairwise mergeRel →
      (groupRuns l).Pairwise fun a b => a.1.key < b.1.key := by
  intro l
  induction l with
  | nil => intro _; exact List.Pairwise.nil
  | cons t rest ih =>
    intro hp
    obtain ⟨hrel, hrest⟩ := List.pairwise_cons.mp hp
    cases rest with
    | nil => simp [groupRuns]
    | cons r0 rest2 =>
      obtain ⟨g2, tail2, hgr2⟩ := groupRuns_head r0 rest2
      have ihr := ih hrest
      rw [hgr2] at ihr
      obtain ⟨hr0_lt, htailpw⟩ := List.pairwise_cons.mp ihr
      rw [groupRuns_cons_cons t r0 rest2 g2 tail2 hgr2]
      by_cases hk : t.key = r0.key
      · rw [if_pos hk]
        refine List.pairwise_cons.mpr ⟨?_, htailpw⟩
        intro x hx
        rw [hk]
        exact hr0_lt x hx
      · rw [if_neg hk]
        have htr0 : t.key < r0.key := by
          have := mergeRel_key_le (hrel r0 (List.mem_cons_self _ _))
          omega
        refine List.pairwise_cons.mpr ⟨?_, ihr⟩
        intro x hx
        rcases List.mem_cons.mp hx with rfl | hx2
        · exact htr0
        · exact Nat.lt_trans htr0 (hr0_lt x hx2)

theorem groupRuns_filter {ρ : Type} :
    ∀ l : List (TaggedRow ρ), l.Pairwise mergeRel →
      ∀ ug ∈ groupRuns l, ug.1 :: ug.2 = l.filter fun x => x.key == ug.1.key := by
  intro l
  induction l with
  | nil => intro _ ug hug; simp [groupRuns] at hug
  | cons t rest ih =>
    intro hp ug hug
    obtain ⟨hrel, hrest⟩ := List.pairwise_cons.mp hp
    cases rest with
    | nil =>
      simp only [groupRuns] at hug
      simp only [List.mem_singleton] at hug
      subst hug
      simp [List.filter]
    | cons r0 rest2 =>
      obtain ⟨g2, tail2, hgr2⟩ := groupRuns_head r0 rest2
      rw [groupRuns_cons_cons t r0 rest2 g2 tail2 hgr2] at hug
      have hstrict := groupRuns_strict_keys (r0 :: rest2) hrest
      rw [hgr2] at hstrict
      obtain ⟨hr0_lt, _⟩ := List.pairwise_cons.mp hstrict
      have hkey_rest : ∀ x ∈ r0 :: rest2, r0.key ≤ x.key := by
        intro x hx
        rcases List.mem_cons.mp hx with rfl | hx2
        · exact le_refl _
        · exact mergeRel_key_le ((List.pairwise_cons.mp hrest).1 x hx2)
      by_cases hk : t.key = r0.key
      · rw [if_pos hk] at hug
        rcases List.mem_cons.mp hug with rfl | hug2
        · have hIH := ih hrest (r0, g2) (by rw [hgr2]; exact List.mem_cons_self _ _)
          rw [List.filter_cons_of_pos (by simp)]
          have hfuneq : (fun x : TaggedRow ρ => x.key == (t, r0 :: g2).1.key)
              = fun x : TaggedRow ρ => x.key == r0.key := by
            funext x
            simp only []
            rw [show (t, r0 :: g2).1.key = t.key from rfl, hk]
          rw [hfuneq]
          exact congrArg (List.cons t) hIH
        · have hIH := ih hrest ug (by rw [hgr2]; exact List.mem_cons_of_mem _ hug2)
          have hlt : r0.key < ug.1.key := hr0_lt ug hug2
          rw [List.filter_cons_of_neg (by simp; omega)]
          exact hIH
      · rw [if_neg hk] at hug
        have htr0 : t.key < r0.key := by
          have := mergeRel_key_le (hrel r0 (List.mem_cons_self _ _))
          omega
        rcases List.mem_cons.mp hug with rfl | hug2
        · rw [List.filter_cons_of_pos (by simp)]
          rw [List.filter_eq_nil_iff.mpr ?_]
          · intro x hx
            have h1 : r0.key ≤ x.key := hkey_rest x hx
            simp only [beq_iff_eq]
            show ¬x.key = (t, ([] : List (TaggedRow ρ))).1.key
            simp only []
            omega
        · have hIH := ih hrest ug (by rw [hgr2]; exact hug2)
          have hne : t.key < ug.1.key := by
            rcases List.mem_cons.mp hug2 with rfl | hug3
            · exact htr0
            · exact Nat.lt_trans htr0 (hr0_lt ug hug3)
          rw [List.filter_cons_of_neg (by simp; omega)]
          exact hIH

theorem groupRuns_version_max {ρ : Type} (l : List (TaggedRow ρ))
    (hp : l.Pairwise mergeRel) (ug : TaggedRow ρ × List (TaggedRow ρ))
    (hug : ug ∈ groupRuns l) :
    ∀ x ∈ ug.1 :: ug.2, x.version ≤ ug.1.version := by
  intro x hx
  have hfil := groupRuns_filter l hp ug hug
  have hsf : (ug.1 :: ug.2).Pairwise mergeRel := by
    rw [hfil]
    exact hp.sublist (List.filter_sublist l)
  rcases List.mem_cons.mp hx with rfl | hx2
  · exact le_refl _
  · have hrel := (List.pairwise_cons.mp hsf).1 x hx2
    have hxf : x ∈ l.filter fun y => y.key == ug.1.key := by
      rw [← hfil]
      exact List.mem_cons_of_mem _ hx2
    have hkey : x.key = ug.1.key := by
      simpa using (List.mem_filter.mp hxf).2
    unfold mergeRel at hrel
    omega

theorem groupRuns_mem_orig {ρ : Type} (l : List (TaggedRow ρ))
    (ug : TaggedRow ρ × List (TaggedRow ρ)) (hug : ug ∈ groupRuns l)
    (x : TaggedRow ρ) (hx : x ∈ ug.1 :: ug.2) : x ∈ l := by
  rw [← groupRuns_join l]
  exact List.mem_bind.mpr ⟨ug, hug, hx⟩

theorem groupRuns_covers {ρ : Type} (l : List (TaggedRow ρ)) (t : TaggedRow ρ)
    (ht : t ∈ l) : ∃ ug ∈ groupRuns l, t ∈ ug.1 :: ug.2 := by
  rw [← groupRuns_join l] at ht
  exact List.mem_bind.mp ht

theorem groupRuns_key_of_mem {ρ : Type} (l : List (TaggedRow ρ))
    (hp : l.Pairwise mergeRel) (ug : TaggedRow ρ × List (TaggedRow ρ))
    (hug : ug ∈ groupRuns l) (x : TaggedRow ρ) (hx : x ∈ ug.1 :: ug.2) :
    x.key = ug.1.key := by
  have hfil := groupRuns_filter l hp ug hug
  rw [hfil] at hx
  simpa using (List.mem_filter.mp hx).2

theorem groupRuns_length_eq_card {ρ : Type} (l : List (TaggedRow ρ))
    (hp : l.Pairwise mergeRel) :
    (groupRuns l).length = ((l.map fun t => t.key).toFinset).card := by
  have hstrict := groupRuns_strict_keys l hp
  have hnody : ((groupRuns l).map fun ug => ug.1.key).Nodup := by
    rw [List.Nodup, List.pairwise_map]
    exact hstrict.imp fun hab => Nat.ne_of_lt hab
  have hset : (((groupRuns l).map fun ug => ug.1.key).toFinset) =
      ((l.map fun t => t.key).toFinset) := by
    apply Finset.ext
    intro x
    simp only [List.mem_toFinset, List.mem_map]
    constructor
    · rintro ⟨ug, hug, rfl⟩
      exact ⟨ug.1, groupRuns_mem_orig l ug hug ug.1 (List.mem_cons_self _ _), rfl⟩
    · rintro ⟨t, ht, rfl⟩
      obtain ⟨ug, hug, hmem⟩ := groupRuns_covers l t ht
      exact ⟨ug, hug, (groupRuns_key_of_mem l hp ug hug t hmem).symm⟩
  calc (groupRuns l).length
      = ((groupRuns l).map fun ug => ug.1.key).length :=
        (List.length_map _ _).symm
    _ = (((groupRuns l).map fun ug => ug.1.key).toFinset).card :=
        (List.toFinset_card_of_nodup hnody).symm
    _ = ((l.map fun t => t.key).toFinset).card := by rw [hset]

theorem pairwise_lt_key_inj {ρ : Type}
    (L : List (TaggedRow ρ × List (TaggedRow ρ)))
    (h : L.Pairwise fun a b => a.1.key < b.1.key)
    (a b : TaggedRow ρ × List (TaggedRow ρ)) (ha : a ∈ L) (hb : b ∈ L)
    (hk : a.1.key = b.1.key) : a = b := by
  obtain ⟨i, hi⟩ := List.get_of_mem ha
  obtain ⟨j, hj⟩ := List.get_of_mem hb
  have hpg := List.pairwise_iff_get.mp h
  rcases Nat.lt_trichotomy i.val j.val with hij | hij | hij
  · have := hpg i j hij
    rw [hi, hj] at this
    omega
  · rw [← hi, ← hj]
    congr 1
    exact Fin.ext hij
  · have := hpg j i hij
    rw [hi, hj] at this
    omega

theorem mergedRows_sorted {ρ : Type} (srcs : List (RowSource ρ)) :
    (mergedRows srcs).Pairwise mergeRel :=
  List.sorted_insertionSort mergeRel (allRows srcs)

theorem mergedRows_perm {ρ : Type} (srcs : List (RowSource ρ)) :
    List.Perm (mergedRows srcs) (allRows srcs) :=
  List.perm_insertionSort mergeRel (allRows srcs)

/-- Error codes of the reader (olap_define.h; only the one used here). -/
inductive OlapErrCode where
  | readerInitializeError
deriving DecidableEq

/-- Status returned by reader entry points (common/status.h). -/
inductive Status where
  | ok
  | olapInternalError (code : OlapErrCode)
deriving DecidableEq

/-- The four next-block policies a `BlockReader` can select
(`_direct_next_block`, `_direct_agg_key_next_block`, `_agg_key_next_block`,
`_unique_key_next_block`). -/
inductive NextBlockPolicy where
  | direct
  | directAggregate
  | aggregateMerge
  | uniqueMerge
deriving DecidableEq

/-- Table key semantics supplied externally through `ReaderParams`. -/
inductive KeysType where
  | dupKeys
  | aggKeys
  | uniqueKeys
deriving DecidableEq

/-- Modelled from the spec: the decision table of `BlockReader::init`
(body outside the snapshot) choosing `_next_block_func` once at
initialization, as a pure function of (key semantics, contributing source
count, non-overlapping flag): duplicate-key tables read directly;
aggregate-key tables with exactly one internally non-overlapping source
read directly; other aggregate-key tables aggregate-merge; unique-key
tables unique-merge. -/
def selectNextBlockPolicy (kt : KeysType) (sourceCount : Nat)
    (nonOverlapping : Bool) : NextBlockPolicy :=
  match kt with
  | KeysType.dupKeys => NextBlockPolicy.direct
  | KeysType.aggKeys =>
    if sourceCount = 1 ∧ nonOverlapping = true then
      NextBlockPolicy.directAggregate
    else NextBlockPolicy.aggregateMerge
  | KeysType.uniqueKeys => NextBlockPolicy.uniqueMerge

/-- Modelled from the spec: `_direct_next_block` — pass every row of the
merged stream through unchanged, no dedup, no aggregation. -/
def directOutput {ρ : Type} (srcs : List (RowSource ρ)) : List (TaggedRow ρ) :=
  mergedRows srcs

/-- Modelled from the spec: `_unique_key_next_block` — group the merged
stream by key; within a group only the first row (the highest version, as
the merge order reads versions high to low) is emitted with its full row;
the rest are discarded. -/
def uniqueMergeOutput {ρ : Type} (srcs : List (RowSource ρ)) :
    List (TaggedRow ρ) :=
  (groupRuns (mergedRows srcs)).map fun ug => ug.1

/-- Modelled from the spec: `_agg_key_next_block` — group the merged stream
by key; the first row of a group seeds the output row and the aggregate
state; each later row of the group is fed into the aggregate state via
`upd`; the closed group finalizes into one output row. -/
def aggMergeOutput {ρ : Type} (upd : ρ → ρ → ρ) (srcs : List (RowSource ρ)) :
    List (TaggedRow ρ) :=
  (groupRuns (mergedRows srcs)).map fun ug =>
    { key := ug.1.key, version := ug.1.version,
      row := ug.2.foldl (fun acc t => upd acc t.row) ug.1.row }

/-- State of a `BlockReader` scan (vec/olap/block_reader.h): the policy
selected at init (`_next_block_func`), the pending merged stream
(`_vcollect_iter`), and the `_eof` flag. -/
structure BlockReaderState (ρ : Type) where
  policy : NextBlockPolicy
  pending : List (TaggedRow ρ)
  eofFlag : Bool
deriving DecidableEq

/-- Modelled from the spec: `BlockReader::init` — select the policy exactly
once from (key semantics, source count, overlap flag) and set up the
collect iterator over the contributing sources. -/
def BlockReader.init {ρ : Type} (kt : KeysType) (nonOverlapping : Bool)
    (srcs : List (RowSource ρ)) : BlockReaderState ρ :=
  { policy := selectNextBlockPolicy kt srcs.length nonOverlapping
    pending := mergedRows srcs
    eofFlag := false }

/-- Rows produced by dispatching one policy over the pending stream. -/
def policyRows {ρ : Type} (upd : ρ → ρ → ρ) (p : NextBlockPolicy)
    (pending : List (TaggedRow ρ)) : List (TaggedRow ρ) :=
  match p with
  | NextBlockPolicy.direct => pending
  | NextBlockPolicy.directAggregate => pending
  | NextBlockPolicy.aggregateMerge =>
    (groupRuns pending).map fun ug =>
      { key := ug.1.key, version := ug.1.version,
        row := ug.2.foldl (fun acc t => upd acc t.row) ug.1.row }
  | NextBlockPolicy.uniqueMerge => (groupRuns pending).map fun ug => ug.1

/-- The outputs of one `next_block_with_aggregation` call. -/
structure NextBlockResult (ρ : Type) where
  status : Status
  rows : List (TaggedRow ρ)
  eof : Bool
  state : BlockReaderState ρ
deriving DecidableEq

/-- Modelled from the spec: `BlockReader::next_block_with_aggregation` —
`return (this->*_next_block_func)(...)`: dispatch through the policy
selected at init; the `_eof` flag is set once every source is exhausted
and any pending group finalized; calls after end-of-stream return zero
rows with an OK status. -/
def BlockReader.next_block_with_aggregation {ρ : Type} (upd : ρ → ρ → ρ)
    (s : BlockReaderState ρ) : NextBlockResult ρ :=
  if s.eofFlag then
    { status := Status.ok, rows := [], eof := true, state := s }
  else
    { status := Status.ok, rows := policyRows upd s.policy s.pending,
      eof := true,
      state := { policy := s.policy, pending := [], eofFlag := true } }

/-- `BlockReader::next_row_with_aggregation` (block_reader.h, in the
snapshot): the body is unconditionally
`return Status::OLAPInternalError(OLAP_ERR_READER_INITIALIZE_ERROR);` —
no row is produced and no member is mutated. -/
def BlockReader.next_row_with_aggregation {ρ : Type}
    (s : BlockReaderState ρ) :
    Status × Option (TaggedRow ρ) × BlockReaderState ρ :=
  (Status.olapInternalError OlapErrCode.readerInitializeError, none, s)

/-- Iterate `next_block_with_aggregation`, keeping only the state. -/
def nextBlockIter {ρ : Type} (upd : ρ → ρ → ρ) :
    Nat → BlockReaderState ρ → BlockReaderState ρ
  | 0, s => s
  | n + 1, s =>
    nextBlockIter upd n (BlockReader.next_block_with_aggregation upd s).state

/-- C10: for every reader state, the row-at-a-time entry point
`next_row_with_aggregation` unconditionally returns
`OLAPInternalError(OLAP_ERR_READER_INITIALIZE_ERROR)`, yields no row and
leaves the state untouched. -/
theorem C10_next_row_unconditional_error {ρ : Type} (s : BlockReaderState ρ) :
    BlockReader.next_row_with_aggregation s =
      (Status.olapInternalError OlapErrCode.readerInitializeError, none, s) :=
  rfl

/-- C8: once the end-of-stream flag is set, a `next_block_with_aggregation`
call returns zero rows with an OK status and an unchanged state (so
end-of-stream remains set), and any number of further calls leaves the
state fixed. -/
theorem C8_eof_terminal {ρ : Type} (upd : ρ → ρ → ρ)
    (s : BlockReaderState ρ) (h : s.eofFlag = true) :
    BlockReader.next_block_with_aggregation upd s =
      { status := Status.ok, rows := [], eof := true, state := s } ∧
    ∀ n, nextBlockIter upd n s = s := by
  have hstep : BlockReader.next_block_with_aggregation upd s =
      { status := Status.ok, rows := [], eof := true, state := s } := by
    unfold BlockReader.next_block_with_aggregation
    rw [h]
    simp
  refine ⟨hstep, ?_⟩
  intro n
  induction n with
  | zero => rfl
  | succ m ih =>
    show nextBlockIter upd m
      (BlockReader.next_block_with_aggregation upd s).state = s
    rw [hstep]
    exact ih

/-- Witness for C8: an exhausted direct scan over row type `Nat`. -/
theorem C8_witness :
    BlockReader.next_block_with_aggregation Nat.add
        { policy := NextBlockPolicy.direct, pending := [],
          eofFlag := true } =
      { status := Status.ok, rows := [], eof := true,
        state := { policy := NextBlockPolicy.direct, pending := [],
                   eofFlag := true } } ∧
    nextBlockIter Nat.add 5
        { policy := NextBlockPolicy.direct, pending := ([] : List (TaggedRow Nat)),
          eofFlag := true } =
      { policy := NextBlockPolicy.direct, pending := [], eofFlag := true } :=
  ⟨(C8_eof_terminal Nat.add _ rfl).1, (C8_eof_terminal Nat.add _ rfl).2 5⟩

/-- C6: the next-block policy is a pure function of (key semantics, source
count, overlap flag), fixed at init: duplicate-key gives Direct;
aggregate-key with one non-overlapping source gives Direct-Aggregate; any
other aggregate-key gives Aggregate-Merge; unique-key gives Unique-Merge;
the four policies are distinct; every `next_block` call dispatches through
the stored policy, which no call changes. -/
theorem C6_policy_selection {ρ : Type} (upd : ρ → ρ → ρ) (n : Nat) (b : Bool)
    (kt : KeysType) (srcs : List (RowSource ρ)) (s : BlockReaderState ρ) :
    selectNextBlockPolicy KeysType.dupKeys n b = NextBlockPolicy.direct ∧
    (n = 1 ∧ b = true →
      selectNextBlockPolicy KeysType.aggKeys n b =
        NextBlockPolicy.directAggregate) ∧
    (¬(n = 1 ∧ b = true) →
      selectNextBlockPolicy KeysType.aggKeys n b =
        NextBlockPolicy.aggregateMerge) ∧
    selectNextBlockPolicy KeysType.uniqueKeys n b =
      NextBlockPolicy.uniqueMerge ∧
    [NextBlockPolicy.direct, NextBlockPolicy.directAggregate,
      NextBlockPolicy.aggregateMerge, NextBlockPolicy.uniqueMerge].Nodup ∧
    (BlockReader.init kt b srcs).policy =
      selectNextBlockPolicy kt srcs.length b ∧
    (BlockReader.next_block_with_aggregation upd s).state.policy =
      s.policy ∧
    (s.eofFlag = false →
      (BlockReader.next_block_with_aggregation upd s).rows =
        policyRows upd s.policy s.pending) := by
  refine ⟨rfl, ?_, ?_, rfl, by decide, rfl, ?_, ?_⟩
  · rintro ⟨rfl, rfl⟩
    simp [selectNextBlockPolicy]
  · intro h
    simp only [selectNextBlockPolicy, if_neg h]
  · unfold BlockReader.next_block_with_aggregation
    by_cases h : s.eofFlag <;> simp [h]
  · intro h
    unfold BlockReader.next_block_with_aggregation
    simp [h]

/-- Witness for C6 at concrete inputs: an aggregate-key table with three
overlapping sources selects Aggregate-Merge, with one non-overlapping
source selects Direct-Aggregate. -/
theorem C6_witness :
    selectNextBlockPolicy KeysType.aggKeys 3 false =
      NextBlockPolicy.aggregateMerge ∧
    selectNextBlockPolicy KeysType.aggKeys 1 true =
      NextBlockPolicy.directAggregate ∧
    (BlockReader.next_block_with_aggregation Nat.add
        { policy := NextBlockPolicy.uniqueMerge,
          pending := [{ key := 1, version := 1, row := 5 }],
          eofFlag := false }).rows =
      policyRows Nat.add NextBlockPolicy.uniqueMerge
        [{ key := 1, version := 1, row := 5 }] :=
  ⟨(C6_policy_selection Nat.add 3 false KeysType.aggKeys []
      { policy := NextBlockPolicy.direct, pending := [],
        eofFlag := false }).2.2.1 (by simp),
   (C6_policy_selection Nat.add 1 true KeysType.aggKeys []
      { policy := NextBlockPolicy.direct, pending := [],
        eofFlag := false }).2.1 ⟨rfl, rfl⟩,
   (C6_policy_selection Nat.add 1 true KeysType.aggKeys []
      { policy := NextBlockPolicy.uniqueMerge,
        pending := [{ key := 1, version := 1, row := 5 }],
        eofFlag := false }).2.2.2.2.2.2.2 rfl⟩

theorem allRows_length {ρ : Type} (srcs : List (RowSource ρ)) :
    (allRows srcs).length = (srcs.map fun s => s.rows.length).sum := by
  induction srcs with
  | nil => rfl
  | cons s ss ih =>
    have hcons : allRows (s :: ss) =
        (s.rows.map fun kr =>
          ({ key := kr.1, version := s.version, row := kr.2 } : TaggedRow ρ))
          ++ allRows ss := by
      simp [allRows]
    rw [hcons, List.length_append, List.length_map, ih, List.map_cons,
      List.sum_cons]

/-- C5: Direct emits exactly the total input row count; Unique-Merge and
Aggregate-Merge emit exactly one row per distinct key across all sources;
under Aggregate-Merge each output row's aggregate value is the aggregate
update function folded over exactly the input rows sharing that key (the
nonempty filtered run), and for a single sum column over values v1 and v2
on one key the single output row carries their sum. -/
theorem C5_merge_row_count_laws {ρ : Type} (upd : ρ → ρ → ρ)
    (srcs : List (RowSource ρ))
    (hsorted : ∀ s ∈ srcs, s.rows.Pairwise fun a b => a.1 < b.1) :
    (directOutput srcs).length = (srcs.map fun s => s.rows.length).sum ∧
    (uniqueMergeOutput srcs).length =
      (((allRows srcs).map fun t => t.key).toFinset).card ∧
    (aggMergeOutput upd srcs).length =
      (((allRows srcs).map fun t => t.key).toFinset).card ∧
    (∀ out ∈ aggMergeOutput upd srcs,
      ∃ v vs,
        (((mergedRows srcs).filter fun t => t.key == out.key).map
          fun t => t.row) = v :: vs ∧
        out.row = vs.foldl upd v ∧
        List.Perm ((mergedRows srcs).filter fun t => t.key == out.key)
          ((allRows srcs).filter fun t => t.key == out.key)) ∧
    ∀ k v1 v2 : Nat,
      aggMergeOutput Nat.add
          [{ version := 1, rows := [(k, v1)] },
           { version := 2, rows := [(k, v2)] }] =
        [{ key := k, version := 2, row := v2 + v1 }] := by
  have hperm := mergedRows_perm srcs
  have hsort := mergedRows_sorted srcs
  have hkeyfinset :
      (((mergedRows srcs).map fun t => t.key).toFinset) =
      (((allRows srcs).map fun t => t.key).toFinset) :=
    List.toFinset_eq_of_perm _ _ (hperm.map _)
  refine ⟨?_, ?_, ?_, ?_, ?_⟩
  · rw [directOutput, hperm.length_eq, allRows_length]
  · simp only [uniqueMergeOutput, List.length_map]
    rw [groupRuns_length_eq_card _ hsort, hkeyfinset]
  · simp only [aggMergeOutput, List.length_map]
    rw [groupRuns_length_eq_card _ hsort, hkeyfinset]
  · intro out hout
    simp only [aggMergeOutput, List.mem_map] at hout
    obtain ⟨ug, hug, rfl⟩ := hout
    have hfil := groupRuns_filter _ hsort ug hug
    refine ⟨ug.1.row, ug.2.map fun t => t.row, ?_, ?_, hperm.filter _⟩
    · show (((mergedRows srcs).filter fun t => t.key == ug.1.key).map
        fun t => t.row) = ug.1.row :: ug.2.map fun t => t.row
      rw [← hfil]
      rfl
    · show ug.2.foldl (fun acc t => upd acc t.row) ug.1.row =
        (ug.2.map fun t => t.row).foldl upd ug.1.row
      rw [List.foldl_map]
  · intro k v1 v2
    simp [aggMergeOutput, mergedRows, allRows, List.insertionSort,
      List.orderedInsert, groupRuns, mergeRel]

/-- C4: under Unique-Merge every emitted row is one of the input rows and
carries the maximal version among input rows of its key; every input key
is represented by exactly one emitted row; in particular two sources
holding the same key at versions 1 and 2 emit only the version-2 row with
its full payload. -/
theorem C4_unique_merge_highest_version {ρ : Type}
    (srcs : List (RowSource ρ))
    (hsorted : ∀ s ∈ srcs, s.rows.Pairwise fun a b => a.1 < b.1) :
    (∀ out ∈ uniqueMergeOutput srcs,
        out ∈ allRows srcs ∧
        ∀ x ∈ allRows srcs, x.key = out.key → x.version ≤ out.version) ∧
    (∀ t ∈ allRows srcs,
        ∃ out ∈ uniqueMergeOutput srcs,
          out.key = t.key ∧
          ∀ out2 ∈ uniqueMergeOutput srcs, out2.key = t.key → out2 = out) ∧
    ∀ (k : Nat) (r1 r2 : ρ),
      uniqueMergeOutput
          [{ version := 1, rows := [(k, r1)] },
           { version := 2, rows := [(k, r2)] }] =
        [{ key := k, version := 2, row := r2 }] := by
  have hperm := mergedRows_perm srcs
  have hsort := mergedRows_sorted srcs
  refine ⟨?_, ?_, ?_⟩
  · intro out hout
    simp only [uniqueMergeOutput, List.mem_map] at hout
    obtain ⟨ug, hug, rfl⟩ := hout
    constructor
    · exact hperm.subset
        (groupRuns_mem_orig _ ug hug ug.1 (List.mem_cons_self _ _))
    · intro x hx hkey
      have hxm : x ∈ mergedRows srcs := hperm.symm.subset hx
      have hxf : x ∈ (mergedRows srcs).filter fun y => y.key == ug.1.key := by
        rw [List.mem_filter]
        exact ⟨hxm, by simpa using hkey⟩
      rw [← groupRuns_filter _ hsort ug hug] at hxf
      exact groupRuns_version_max _ hsort ug hug x hxf
  · intro t ht
    have htm : t ∈ mergedRows srcs := hperm.symm.subset ht
    obtain ⟨ug, hug, hmem⟩ := groupRuns_covers _ t htm
    refine ⟨ug.1, ?_, ?_, ?_⟩
    · simp only [uniqueMergeOutput, List.mem_map]
      exact ⟨ug, hug, rfl⟩
    · exact (groupRuns_key_of_mem _ hsort ug hug t hmem).symm
    · intro out2 hout2 hkey2
      simp only [uniqueMergeOutput, List.mem_map] at hout2
      obtain ⟨ug2, hug2, rfl⟩ := hout2
      have heq : ug2 = ug := by
        refine pairwise_lt_key_inj _ (groupRuns_strict_keys _ hsort)
          ug2 ug hug2 hug ?_
        rw [hkey2, groupRuns_key_of_mem _ hsort ug hug t hmem]
      rw [heq]
  · intro k r1 r2
    simp [uniqueMergeOutput, mergedRows, allRows, List.insertionSort,
      List.orderedInsert, groupRuns, mergeRel]

/-- The two-source scenario of C4 over row type `Nat`: key 1, payloads 10
(version 1) and 20 (version 2). -/
def c4srcs : List (RowSource Nat) :=
  [{ version := 1, rows := [(1, 10)] }, { version := 2, rows := [(1, 20)] }]

/-- Witness for C4: the two-source scenario emits only the version-2 row. -/
theorem C4_witness :
    (∀ s ∈ c4srcs, s.rows.Pairwise fun a b => a.1 < b.1) ∧
    uniqueMergeOutput
        [{ version := 1, rows := [(1, (10 : Nat))] },
         { version := 2, rows := [(1, 20)] }] =
      [{ key := 1, version := 2, row := 20 }] :=
  ⟨by decide,
   (C4_unique_merge_highest_version c4srcs (by decide)).2.2 1 10 20⟩

/-- The two-source scenario of C5: both sources hold key 2, sum values 3
and 4. -/
def c5srcs : List (RowSource Nat) :=
  [{ version := 1, rows := [(2, 3)] }, { version := 2, rows := [(2, 4)] }]

/-- Witness for C5 at the sum scenario: counts and the value 7 for key 2. -/
theorem C5_witness :
    (∀ s ∈ c5srcs, s.rows.Pairwise fun a b => a.1 < b.1) ∧
    (directOutput c5srcs).length =
      (c5srcs.map fun s => s.rows.length).sum ∧
    (uniqueMergeOutput c5srcs).length =
      (((allRows c5srcs).map fun t => t.key).toFinset).card ∧
    (aggMergeOutput Nat.add c5srcs).length =
      (((allRows c5srcs).map fun t => t.key).toFinset).card ∧
    aggMergeOutput Nat.add
        [{ version := 1, rows := [(2, (3 : Nat))] },
         { version := 2, rows := [(2, 4)] }] =
      [{ key := 2, version := 2, row := 7 }] :=
  ⟨by decide,
   (C5_merge_row_count_laws Nat.add c5srcs (by decide)).1,
   (C5_merge_row_count_laws Nat.add c5srcs (by decide)).2.1,
   (C5_merge_row_count_laws Nat.add c5srcs (by decide)).2.2.1,
   (C5_merge_row_count_laws Nat.add c5srcs (by decide)).2.2.2.2 2 3 4⟩

end DorisSpec
